import Mathlib

/-!
Shallow embedding of `scripts/check_bib_usage.py`.

The script is a single-pass bibliography/usage auditor built from Python
regular expressions.  Every definition below mirrors one piece of the
Python source.  The specific regular expressions of the script are not
general regexes but fixed patterns; each one is translated into an
explicit scanning function whose backtracking behaviour was derived by
hand from the pattern (the derivations are recorded in comments next to
the definitions).

Modelling conventions:
* Python `str` is modelled as Lean `String` (lists of characters); the
  byte-level encoding never matters for this script.
* Python dicts keyed by strings are modelled as insertion-ordered
  association lists (`List (String × Nat)` for the usage counts).  The
  dict `missing_cites : key -> list of (file, line, text)` is modelled as
  the flat list of records in discovery order; the per-key lists of the
  Python dict are exactly the key-filtered sublists of that flat list,
  and the dict's insertion order of keys is the first-occurrence order of
  keys in the flat list (`groupMissing` below recovers the dict view).
* `Path.resolve()` (used only to skip the bibliography file itself) is
  modelled as the identity on the abstract path string.
* Files are `FileRec` records (path and content); `root.rglob('*')` is
  modelled by handing the tree's path list / file list to the functions;
  reading a file always succeeds in the model (the script silently skips
  unreadable files, which the claims do not touch).
* The character scanners that model `re` searches use a fuel parameter
  bounded by the input length + 1; every recursive call strictly shrinks
  the remaining character list, so the fuel never runs out and the fueled
  function agrees with the unfueled scan.  Fuel is used only to keep the
  definitions structurally recursive (hence kernel-reducible).
-/

set_option maxRecDepth 10000

namespace CheckBib

/-- Python whitespace for `\s`, `str.strip()` and friends (ASCII range;
the inputs of this development are ASCII). -/
def pyIsSpace (c : Char) : Bool :=
  c = ' ' || c = '\t' || c = '\n' || c = '\r' || c = '\x0b' || c = '\x0c'

/-- Python `\w` word character (ASCII range). -/
def wordChar (c : Char) : Bool :=
  c.isAlpha || c.isDigit || c = '_'

/-- Characters of `str.lstrip()`. -/
def pyStripL (cs : List Char) : List Char := cs.dropWhile pyIsSpace

/-- Characters of `str.rstrip()`. -/
def pyStripR (cs : List Char) : List Char :=
  (cs.reverse.dropWhile pyIsSpace).reverse

/-- Characters of `str.strip()`. -/
def pyStripChars (cs : List Char) : List Char := pyStripR (pyStripL cs)

/-- Python `str.strip()`. -/
def pyStrip (s : String) : String := String.mk (pyStripChars s.data)

/-- Python `str.lower()` (ASCII). -/
def pyLower (s : String) : String := String.mk (s.data.map Char.toLower)

/-- Helper for `re.sub(r"\s+", " ", s)`: the flag records whether the
previous character was whitespace (a whitespace run collapses to one
space). -/
def collapseWsAux : Bool → List Char → List Char
  | _, [] => []
  | inWs, c :: rest =>
    if pyIsSpace c then
      if inWs then collapseWsAux true rest else ' ' :: collapseWsAux true rest
    else c :: collapseWsAux false rest

/-- Characters of `re.sub(r"\s+", " ", s)`. -/
def collapseWs (cs : List Char) : List Char := collapseWsAux false cs

/-- Helper for `str.splitlines()`: splits on `\n`, `\r\n` and `\r`
(the exotic Unicode line boundaries of Python are out of scope for this
script's ASCII inputs).  The accumulator holds the current line
reversed; no trailing empty line is produced for a trailing newline,
matching Python. -/
def splitlinesAux : List Char → List Char → List (List Char)
  | [], acc => if acc.isEmpty then [] else [acc.reverse]
  | '\r' :: '\n' :: rest, acc => acc.reverse :: splitlinesAux rest []
  | '\n' :: rest, acc => acc.reverse :: splitlinesAux rest []
  | '\r' :: rest, acc => acc.reverse :: splitlinesAux rest []
  | c :: rest, acc => splitlinesAux rest (c :: acc)

/-- Python `str.splitlines()`. -/
def pySplitlines (s : String) : List String :=
  (splitlinesAux s.data []).map String.mk

/-- Helper for `str.split(sep)` with a one-character separator. -/
def splitChAux (sep : Char) : List Char → List Char → List (List Char)
  | [], acc => [acc.reverse]
  | c :: rest, acc =>
    if c = sep then acc.reverse :: splitChAux sep rest []
    else splitChAux sep rest (c :: acc)

/-- Python `str.split(sep)` for a one-character separator; in particular
`''.split(',') == ['']` and `'a,'.split(',') == ['a', '']`. -/
def pySplit (sep : Char) (s : String) : List String :=
  (splitChAux sep s.data []).map String.mk

/-- Pairs the elements of a list with indices counting from `n`
(Python `enumerate(xs, start=n)`). -/
def enumN : Nat → List α → List (Nat × α)
  | _, [] => []
  | n, a :: l => (n, a) :: enumN (n + 1) l

/-- Tests whether the first list is a leading segment of the second. -/
def startsL : List Char → List Char → Bool
  | [], _ => true
  | _ :: _, [] => false
  | a :: p, b :: c => a = b && startsL p c

/-- Tests whether `needle` occurs as a contiguous substring of `hay`.
This is exactly `re.compile(re.escape(needle)).search(hay)` of the
script's generic key search: escaping makes the pattern a literal. -/
def hasSub (needle : List Char) : List Char → Bool
  | [] => startsL needle []
  | c :: t => startsL needle (c :: t) || hasSub needle t

/-- String-level substring test. -/
def occursIn (needle hay : String) : Bool := hasSub needle.data hay.data

/-! ## The usage-count dictionary

`used = {k: 0 for k in keys}` is an insertion-ordered dict; duplicate
keys in the `keys` list collapse to one slot (first occurrence wins,
later comprehension iterations overwrite with the same `0`). -/

/-- Usage-count dictionary: insertion-ordered association list. -/
abbrev Dict := List (String × Nat)

/-- Helper for first-occurrence deduplication: `seen` holds the keys
already emitted. -/
def pydedupAux (seen : List String) : List String → List String
  | [] => []
  | k :: ks =>
    if k ∈ seen then pydedupAux seen ks
    else k :: pydedupAux (k :: seen) ks

/-- First-occurrence deduplication of a key list: the key order of the
Python dicts `{k: 0 for k in keys}` and `{k: pattern for k in keys}`. -/
def pydedup (keys : List String) : List String := pydedupAux [] keys

/-- The initial dict `used = {k: 0 for k in keys}`. -/
def dinit (keys : List String) : Dict := (pydedup keys).map (fun k => (k, 0))

/-- Dict lookup `used[k]` (total; only applied at present keys by the
script, absent keys give 0). -/
def dget (k : String) : Dict → Nat
  | [] => 0
  | (k2, v) :: d => if k2 = k then v else dget k d

/-- Python `k in used`. -/
def dmem (k : String) (d : Dict) : Bool := d.any (fun p => p.1 == k)

/-- Python `used[k] = max(used[k], 1)` (keys are unique in the dict, so
updating every entry with that key is the same update). -/
def dmax1 (k : String) (d : Dict) : Dict :=
  d.map (fun p => if p.1 = k then (p.1, max p.2 1) else p)

/-- Python `used[k] += 1`. -/
def dincr (k : String) (d : Dict) : Dict :=
  d.map (fun p => if p.1 = k then (p.1, p.2 + 1) else p)

/-- Key sequence of the dict (`used.keys()`, insertion order). -/
def dkeys (d : Dict) : List String := d.map Prod.fst

/-! ## The fixed regular expressions of the scan

`\\nocite\s*{([^}]*)}` and
`\\(cite|citep|citet|parencite|autocite|footcite)\s*{([^}]*)}`.

Both have the shape: a backslash, a literal command name (for the cite
family, alternatives tried left to right exactly as the regex engine
backtracks through the alternation), optional whitespace, then a brace
group whose capture is everything up to the first closing brace.
`re.finditer`/`re.findall` semantics: at each position try a match; on
success continue after the consumed text (non-overlapping), otherwise
advance one character. -/

/-- Consumes a literal from the front of the input, or fails. -/
def dropLit : List Char → List Char → Option (List Char)
  | [], cs => some cs
  | _ :: _, [] => none
  | a :: l, b :: cs => if a = b then dropLit l cs else none

/-- Matches `\s*{([^}]*)}` and returns (capture, rest after the
closing brace). -/
def captureBrace (cs : List Char) : Option (List Char × List Char) :=
  match cs.dropWhile pyIsSpace with
  | '\x7b' :: r =>
    let g := r.takeWhile (fun c => c ≠ '\x7d')
    match r.drop g.length with
    | '\x7d' :: rest => some (g, rest)
    | _ => none
  | _ => none

/-- Matches one command name followed by `\s*{([^}]*)}`. -/
def tryNameArg (n : List Char) (cs : List Char) : Option (List Char × List Char) :=
  match dropLit n cs with
  | some r => captureBrace r
  | none => none

/-- Tries the alternatives of an alternation left to right, full match
(name and brace group) for each before moving to the next: regex
backtracking through `(cite|citep|...)`. -/
def tryAlts : List (List Char) → List Char → Option (List Char × List Char)
  | [], _ => none
  | n :: ns, cs =>
    match tryNameArg n cs with
    | some r => some r
    | none => tryAlts ns cs

/-- The alternation of the citation-command pattern, in source order. -/
def citeNames : List (List Char) :=
  ["cite".data, "citep".data, "citet".data, "parencite".data,
   "autocite".data, "footcite".data]

/-- Fueled scanner for the citation-command pattern: collects the brace
captures of all non-overlapping matches, left to right. -/
def citeFindAux : Nat → List Char → List (List Char)
  | 0, _ => []
  | _ + 1, [] => []
  | fuel + 1, c :: rest =>
    if c = '\\' then
      match tryAlts citeNames rest with
      | some (g, r2) => g :: citeFindAux fuel r2
      | none => citeFindAux fuel rest
    else citeFindAux fuel rest

/-- Captures of `re.finditer(r"\\(cite|citep|citet|parencite|autocite|footcite)\s*{([^}]*)}", line)`,
group 2 of each match. -/
def citeMatches (line : String) : List String :=
  (citeFindAux (line.data.length + 1) line.data).map String.mk

/-- Fueled scanner for the nocite pattern. -/
def nocitesAux : Nat → List Char → List (List Char)
  | 0, _ => []
  | _ + 1, [] => []
  | fuel + 1, c :: rest =>
    if c = '\\' then
      match tryNameArg "nocite".data rest with
      | some (g, r2) => g :: nocitesAux fuel r2
      | none => nocitesAux fuel rest
    else nocitesAux fuel rest

/-- Captures of `re.findall(r'\\nocite\s*{([^}]*)}', txt)`. -/
def nocites (txt : String) : List String :=
  (nocitesAux (txt.data.length + 1) txt.data).map String.mk

/-! ## scan_for_usage -/

/-- One scanned file: path (as `str(f)`) and content. -/
structure FileRec where
  path : String
  txt : String
  deriving DecidableEq

/-- One missing-citation record `(file, lineno, line.strip())`, tagged
with the unresolved key it was appended under. -/
structure MissingRec where
  key : String
  file : String
  line : Nat
  text : String
  deriving DecidableEq

/-- The `f.resolve() == bib_path.resolve()` skip (resolution modelled as
identity on the abstract path). -/
def skipFile (bib : Option String) (f : FileRec) : Bool :=
  match bib with
  | some p => p == f.path
  | none => false

/-- Loop `for k in keys: used[k] = max(used[k], 1)` of the cite-all
branch. -/
def starFold (keys : List String) (u : Dict) : Dict :=
  keys.foldl (fun a k => dmax1 k a) u

/-- Loop over `content.split(',')` of the nocite list branch. -/
def listFold (u : Dict) (parts : List String) : Dict :=
  parts.foldl
    (fun a part =>
      let p := pyStrip part
      if dmem p a then dmax1 p a else a) u

/-- Handling of one `\nocite{...}` capture. -/
def nociteApply (keys : List String) (u : Dict) (c : String) : Dict :=
  let content := pyStrip c
  if content = "*" then starFold keys u
  else listFold u (pySplit ',' content)

/-- The whole nocite pass of one file. -/
def nociteStep (keys : List String) (u : Dict) (cs : List String) : Dict :=
  cs.foldl (nociteApply keys) u

/-- Loop `for k, pat in key_patterns.items(): if pat.search(txt): used[k] += 1`
over an explicit key sequence (the dict iteration order is the
first-occurrence order of `keys`). -/
def genericFold (txt : String) (u : Dict) (ks : List String) : Dict :=
  ks.foldl (fun a k => if occursIn k txt then dincr k a else a) u

/-- The generic substring pass of one file. -/
def genericStep (keys : List String) (u : Dict) (txt : String) : Dict :=
  genericFold txt u (pydedup keys)

/-- Inner loop over `group.split(',')` of the missing-citation pass. -/
def partsMissing (u : Dict) (path : String) (n : Nat) (line : String)
    (g : String) : List MissingRec :=
  (pySplit ',' g).foldl
    (fun acc part =>
      if pyStrip part ≠ "" ∧ dmem (pyStrip part) u = false then
        acc ++ [⟨pyStrip part, path, n, pyStrip line⟩]
      else acc) []

/-- Loop over the citation-command matches of one line. -/
def lineMissing (u : Dict) (path : String) (n : Nat) (line : String) :
    List MissingRec :=
  (citeMatches line).foldl (fun acc g => acc ++ partsMissing u path n line g) []

/-- The missing-citation pass of one file (lines enumerated from 1). -/
def missingStep (u : Dict) (path : String) (txt : String) : List MissingRec :=
  (enumN 1 (pySplitlines txt)).foldl
    (fun acc nl => acc ++ lineMissing u path nl.1 nl.2) []

/-- Usage-count effect of one file: the nocite pass, then the generic
substring pass (the missing-citation pass between them never writes
`used`, it only reads key membership). -/
def stepUsed (keys : List String) (u : Dict) (f : FileRec) : Dict :=
  genericStep keys (nociteStep keys u (nocites f.txt)) f.txt

/-- Full effect of one file of the scan loop. -/
def stepFile (keys : List String) (bib : Option String)
    (st : Dict × List MissingRec) (f : FileRec) : Dict × List MissingRec :=
  if skipFile bib f then st
  else
    let u1 := nociteStep keys st.1 (nocites f.txt)
    (genericStep keys u1 f.txt, st.2 ++ missingStep u1 f.path f.txt)

/-- The script's `scan_for_usage(keys, files, bib_path)`: returns the
usage counts and the missing-citation records in discovery order. -/
def scan_for_usage (keys : List String) (files : List FileRec)
    (bib : Option String) : Dict × List MissingRec :=
  files.foldl (stepFile keys bib) (dinit keys, [])

/-- Usage counts computed with the missing-citation pass removed
(files folded through `stepUsed` only). -/
def usedFrom (keys : List String) (bib : Option String) (u : Dict)
    (files : List FileRec) : Dict :=
  files.foldl (fun a f => if skipFile bib f then a else stepUsed keys a f) u

/-! ## extract_bib_keys

Entry pattern: `@(\w+)\s*{\s*([^,\n\r]+)\s*,(.*?)(?=\n@|\Z)` with
IGNORECASE | DOTALL (IGNORECASE is irrelevant: the pattern has no cased
literal).  Derivation of the key part `\s*([^,\n\r]+)\s*,` after the
opening brace: group 2 and the surrounding `\s*` cannot contain a comma,
so the `,` matched is the first comma after the brace.  Let `sAll` be
the text between the brace and that first comma (no match at all if
there is no comma).  A match needs a split `sAll = A ++ B ++ C` with `A`
whitespace, `B` nonempty without newline or carriage return, `C`
whitespace.  If `core := sAll.strip()` is nonempty, `B` must cover
`core` and may shed surrounding whitespace into `A`/`C`, so a match
exists iff `core` has no `\n`/`\r`, and the captured group strips to
`core` (the code applies `.strip()` to the capture).  If `core` is
empty, `sAll` is all whitespace and `B` can be any single character of
it that is not `\n`/`\r`; the capture then strips to the empty string.
Checked against CPython on the edge cases. -/

/-- Key-group match of the entry pattern applied to the text between the
opening brace and the first comma; returns the `.strip()`ped key. -/
def matchKey (s : List Char) : Option (List Char) :=
  let core := pyStripChars s
  if core.isEmpty then
    if s.any (fun c => c ≠ '\n' && c ≠ '\r') then some [] else none
  else
    if core.any (fun c => c = '\n' || c = '\r') then none else some core

/-- Splits at the first occurrence of a newline directly followed by
`@`: the lazy body `(.*?)(?=\n@|\Z)` ends exactly there (or at the end
of the text).  Returns (body, rest starting at the separator). -/
def splitAtEntrySep : List Char → List Char × List Char
  | [] => ([], [])
  | '\n' :: '@' :: rest => ([], '\n' :: '@' :: rest)
  | c :: rest =>
    let ab := splitAtEntrySep rest
    (c :: ab.1, ab.2)

/-- Tries the entry pattern at the current position; on success returns
(type, stripped key, raw body, rest of the text for the next search).
`@`, then `(\w+)` (greedy, no backtracking possible: word characters,
whitespace and `{` are disjoint), then `\s*`, then `{`, then the key
part as derived above, then the lazy body. -/
def matchEntryAt (cs : List Char) : Option (String × String × List Char × List Char) :=
  match cs with
  | '@' :: cs1 =>
    let w := cs1.takeWhile wordChar
    if w.isEmpty then none
    else
      match (cs1.drop w.length).dropWhile pyIsSpace with
      | '\x7b' :: cs4 =>
        let sAll := cs4.takeWhile (fun c => c ≠ ',')
        match cs4.drop sAll.length with
        | ',' :: cs5 =>
          match matchKey sAll with
          | some key =>
            let bd := splitAtEntrySep cs5
            some (String.mk w, String.mk key, bd.1, bd.2)
          | none => none
        | _ => none
      | _ => none
  | _ => none

/-- One parsed entry record of `extract_bib_keys`. -/
structure BibEntry where
  etype : String
  key : String
  title : Option String
  doi : Option String
  body : String
  deriving DecidableEq

/-- Tail `\s*,?\n` of the field pattern: optional whitespace, an
optional comma, then a literal newline.  The whitespace star may itself
absorb newlines (DOTALL does not matter, `\s` always includes them). -/
def tailOK : List Char → Bool
  | '\n' :: _ => true
  | ',' :: '\n' :: _ => true
  | c :: rest => if pyIsSpace c then tailOK rest else false
  | [] => false

/-- Lazy value part `(.*?)[}"]\s*,?\n` of the field pattern: the value
is the shortest prefix whose next character is `}` or `"` with the tail
matching after it; a closing character whose tail fails is absorbed into
the value (DOTALL) and scanning continues. -/
def findClose : List Char → Option (List Char × List Char)
  | [] => none
  | c :: rest =>
    if (c = '\x7d' || c = '"') && tailOK rest then some ([], rest)
    else
      match findClose rest with
      | some (v, r) => some (c :: v, r)
      | none => none

/-- Tries the field pattern `name\s*=\s*[{"](.*?)[}"]\s*,?\n`
(IGNORECASE, DOTALL) at the current position; `fname` is the lowercase
field name.  There is no word boundary in the pattern, matching the
source. -/
def matchFieldAt (fname : List Char) (cs : List Char) : Option (List Char) :=
  if (cs.take fname.length).map Char.toLower = fname then
    match (cs.drop fname.length).dropWhile pyIsSpace with
    | '=' :: r2 =>
      match r2.dropWhile pyIsSpace with
      | o :: r3 =>
        if o = '\x7b' || o = '"' then
          match findClose r3 with
          | some vr => some vr.1
          | none => none
        else none
      | [] => none
    | _ => none
  else none

/-- Leftmost `re.search` of the field pattern: first position where the
pattern matches. -/
def findFieldAux (fname : List Char) : List Char → Option (List Char)
  | [] => none
  | c :: rest =>
    match matchFieldAt fname (c :: rest) with
    | some v => some v
    | none => findFieldAux fname rest

/-- Field extraction `re.search(...); group(1).strip()` over a body. -/
def fieldOf (fname : String) (body : String) : Option String :=
  match findFieldAux fname.data body.data with
  | some v => some (pyStrip (String.mk v))
  | none => none

/-- Fueled `finditer` loop of the entry pattern: on a match continue
after the consumed text, otherwise advance one character.  Each entry
stores the stripped body and the `title`/`doi` fields extracted from
that stripped body, as in the source. -/
def extractAux : Nat → List Char → List BibEntry
  | 0, _ => []
  | _ + 1, [] => []
  | fuel + 1, c :: rest =>
    match matchEntryAt (c :: rest) with
    | some (t, k, rawBody, r2) =>
      let body := String.mk (pyStripChars rawBody)
      { etype := pyStrip t, key := k, title := fieldOf "title" body,
        doi := fieldOf "doi" body, body := body } :: extractAux fuel r2
    | none => extractAux fuel rest

/-- The script's `extract_bib_keys` over the bibliography text. -/
def extract_bib_keys (text : String) : List BibEntry :=
  extractAux (text.data.length + 1) text.data

/-! ## File discovery and the main report -/

/-- Default extension set of `find_files`. -/
def defaultExts : List String := [".tex", ".md", ".Rmd", ".sty"]

/-- Index of the last occurrence of a character. -/
def lastIdx (c : Char) (cs : List Char) : Option Nat :=
  (enumN 0 cs).foldl (fun acc p => if p.2 = c then some p.1 else acc) none

/-- Python `Path(p).suffix`: the extension of the final path component,
from its last dot, empty when the dot is leading or trailing or
absent. -/
def pySuffix (p : String) : String :=
  let name :=
    match (splitChAux '/' p.data []).getLast? with
    | some n => n
    | none => []
  match lastIdx '.' name with
  | some i => if 0 < i ∧ i < name.length - 1 then String.mk (name.drop i) else ""
  | none => ""

/-- The script's `find_files`: keeps the paths whose lowercased suffix
is in the extension set (the default set when `exts` is `None`). -/
def find_files (exts : Option (List String)) (paths : List String) : List String :=
  let es :=
    match exts with
    | some e => e
    | none => defaultExts
  paths.filter (fun p => es.contains (pyLower (pySuffix p)))

/-- The extension-set computation of `main`: with `--ext` arguments the
set is built from them alone (a dot is prepended when missing),
otherwise `None` selects the default set inside `find_files`. -/
def mainExts (extArgs : List String) : Option (List String) :=
  if extArgs.isEmpty then none
  else some (extArgs.map (fun e =>
    match e.data with
    | '.' :: _ => e
    | _ => "." ++ e))

/-- Title normalization of `main`:
`re.sub(r"\s+", " ", e['title'].strip().lower())`. -/
def normTitle (t : String) : String :=
  String.mk (collapseWs ((pyStripChars t.data).map Char.toLower))

/-- DOI normalization of `main`: `e['doi'].strip().lower()` (no
whitespace collapsing, unlike titles). -/
def normDoi (d : String) : String :=
  String.mk ((pyStripChars d.data).map Char.toLower)

/-- Python `map.setdefault(t, []).append(k)` on an insertion-ordered
dict of lists. -/
def mapAdd (m : List (String × List String)) (t k : String) :
    List (String × List String) :=
  if m.any (fun p => p.1 == t) then
    m.map (fun p => if p.1 = t then (p.1, p.2 ++ [k]) else p)
  else m ++ [(t, [k])]

/-- The `title_map` of `main`; entries with a missing or empty title are
skipped (`if e.get('title'):` is false for `None` and `''`). -/
def title_map (entries : List BibEntry) : List (String × List String) :=
  entries.foldl
    (fun m e =>
      match e.title with
      | some t => if t ≠ "" then mapAdd m (normTitle t) e.key else m
      | none => m) []

/-- The `doi_map` of `main`. -/
def doi_map (entries : List BibEntry) : List (String × List String) :=
  entries.foldl
    (fun m e =>
      match e.doi with
      | some d => if d ≠ "" then mapAdd m (normDoi d) e.key else m
      | none => m) []

/-- Duplicate-title groups: map entries with 2 or more keys. -/
def dup_titles (entries : List BibEntry) : List (String × List String) :=
  (title_map entries).filter (fun g => decide (1 < g.2.length))

/-- Duplicate-DOI groups. -/
def dup_dois (entries : List BibEntry) : List (String × List String) :=
  (doi_map entries).filter (fun g => decide (1 < g.2.length))

/-- Duplicate keys: `Counter(keys)` iterates keys in first-occurrence
order. -/
def dup_keys (keys : List String) : List String :=
  (pydedup keys).filter (fun k => decide (1 < keys.count k))

/-- Python `repr` of a list of (plain) strings, as `print('-', ks)`
renders the duplicate groups. -/
def reprKeyListAux : List String → String
  | [] => ""
  | [k] => "\x27" ++ k ++ "\x27"
  | k :: rest => "\x27" ++ k ++ "\x27, " ++ reprKeyListAux rest

/-- Rendered key-list group. -/
def reprKeyList (ks : List String) : String := "[" ++ reprKeyListAux ks ++ "]"

/-- Recovers the dict view of the flat missing-record list: keys in
first-occurrence order, each with its records in discovery order. -/
def groupMissing (ms : List MissingRec) : List (String × List MissingRec) :=
  (pydedup (ms.map (fun r => r.key))).map
    (fun k => (k, ms.filter (fun r => r.key == k)))

/-- Stdout lines of the full report (the non-empty-entries branch of
`main`).  A `print` whose argument embeds `\n` contributes several
lines; note the source's non-raw `'\nAll ... \nocite{*}).'` string
really contains two newlines. -/
def reportLines (bibPath : String) (entries : List BibEntry)
    (tree : List FileRec) (extArgs : List String) : List String :=
  let keys := entries.map (fun e => e.key)
  let dupK := dup_keys keys
  let dupT := dup_titles entries
  let dupD := dup_dois entries
  let exts :=
    match mainExts extArgs with
    | some e => e
    | none => defaultExts
  let files := tree.filter (fun f => exts.contains (pyLower (pySuffix f.path)))
  let um := scan_for_usage keys files (some bibPath)
  let usedKeys := (pydedup keys).filter (fun k => decide (0 < dget k um.1))
  let unusedKeys := (pydedup keys).filter (fun k => decide (dget k um.1 = 0))
  ["Total bib entries: " ++ toString keys.length,
   "Used entries: " ++ toString usedKeys.length,
   "Unused entries: " ++ toString unusedKeys.length]
  ++ (if unusedKeys.isEmpty then
        ["", "All bib entries appear to be referenced (or covered by ",
         "ocite\x7b*\x7d)."]
      else "" :: "List of unused keys:" :: unusedKeys.map (fun k => "- " ++ k))
  ++ (if dupK.isEmpty then []
      else "" :: "Duplicate bib keys in file:" :: dupK.map (fun k => "- " ++ k))
  ++ (if dupT.isEmpty then []
      else "" :: "Duplicate titles (different keys with same title):"
        :: dupT.map (fun g => "- " ++ reprKeyList g.2))
  ++ (if dupD.isEmpty then []
      else "" :: "Duplicate DOIs (different keys with same DOI):"
        :: dupD.map (fun g => "- " ++ reprKeyList g.2))
  ++ (if um.2.isEmpty then []
      else "" :: "Citation keys referenced in source but missing from bibliography:"
        :: (groupMissing um.2).foldl
          (fun acc kl =>
            acc ++ ("- " ++ kl.1)
              :: kl.2.map (fun r =>
                "    " ++ r.file ++ ":" ++ toString r.line ++ ": " ++ r.text)) [])

/-- The observable behaviour of `main`: (stdout lines, exit code).  The
missing-bibliography branch writes to stderr only and exits 2; the
zero-entries branch prints one informational line and exits 0; otherwise
the full report is printed and the process ends normally (exit 0). -/
def mainRun (bibExists : Bool) (bibPath : String) (bibText : String)
    (tree : List FileRec) (extArgs : List String) : List String × Nat :=
  if !bibExists then ([], 2)
  else
    let entries := extract_bib_keys bibText
    if entries.isEmpty then (["No entries found in " ++ bibPath], 0)
    else (reportLines bibPath entries tree extArgs, 0)

/-! ## Spec-side definitions for the claims -/

/-- Trigger of one `\nocite{...}` capture for key `k`: the cite-all
directive (which marks every known key) or a cite-list naming `k`. -/
def NociteTrig (keys : List String) (k : String) (c : String) : Prop :=
  (pyStrip c = "*" ∧ k ∈ keys) ∨
    (pyStrip c ≠ "*" ∧ k ∈ (pySplit ',' (pyStrip c)).map pyStrip)

/-- Usage evidence for key `k` in one file: a triggering nocite capture
or the key occurring as a substring of the content. -/
def FileTrig (keys : List String) (k : String) (f : FileRec) : Prop :=
  (∃ c ∈ nocites f.txt, NociteTrig keys k c) ∨ occursIn k f.txt = true

/-- Modelled from the spec ("For each comma-separated key inside the
command's argument list: if the key is NOT in the known key set, append
(file, 1-based line number, trimmed line text) to that key's
missing-citation record, preserving first-to-last discovery order across
the whole scan"): the missing-citation records as one comprehension over
the non-skipped files, their 1-indexed lines, the citation-command
captures and the comma-separated stripped parts; used to state the C7
refinement of the imperative accumulation. -/
def missingCitationsSpec (keys : List String) (bib : Option String)
    (files : List FileRec) : List MissingRec :=
  (files.filter (fun f => !skipFile bib f)).flatMap (fun f =>
    (enumN 1 (pySplitlines f.txt)).flatMap (fun nl =>
      (citeMatches nl.2).flatMap (fun g =>
        (pySplit ',' g).filterMap (fun part =>
          if pyStrip part ≠ "" ∧ ¬pyStrip part ∈ keys then
            some ⟨pyStrip part, f.path, nl.1, pyStrip nl.2⟩
          else none))))

/-- The per-file comprehension of the missing-citation spec. -/
def missingOfFile (keys : List String) (f : FileRec) : List MissingRec :=
  (enumN 1 (pySplitlines f.txt)).flatMap (fun nl =>
    (citeMatches nl.2).flatMap (fun g =>
      (pySplit ',' g).filterMap (fun part =>
        if pyStrip part ≠ "" ∧ ¬pyStrip part ∈ keys then
          some ⟨pyStrip part, f.path, nl.1, pyStrip nl.2⟩
        else none)))

/-! ## Concrete inputs used by the claim theorems and witnesses -/

/-- The two one-line entries of the C1 scenario, exactly as the spec
writes them, separated by a newline. -/
def bibOneLine : String :=
  "@article\x7bfoo, title=\x7bA Study\x7d, doi=\x7b10.1/x\x7d\x7d\n@article\x7bbar, title=\x7bA Study\x7d, doi=\x7b10.1/y\x7d\x7d"

/-- The same two entries in conventional multi-line form (every field
terminated by a newline). -/
def bibMultiLine : String :=
  "@article\x7bfoo,\n  title=\x7bA Study\x7d,\n  doi=\x7b10.1/x\x7d\n\x7d\n@article\x7bbar,\n  title=\x7bA Study\x7d,\n  doi=\x7b10.1/y\x7d\n\x7d\n"

/-- A citation command with an optional bracket argument. -/
def bracketLine : String := "\\cite[p. 3]\x7bunknownkey\x7d"

/-! # Basic lemmas about the dictionary model -/

theorem mem_pydedupAux {k : String} {seen ks : List String} :
    k ∈ pydedupAux seen ks ↔ k ∈ ks ∧ ¬k ∈ seen := by
  induction ks generalizing seen with
  | nil => simp [pydedupAux]
  | cons a t ih =>
    by_cases ha : a ∈ seen
    · rw [pydedupAux, if_pos ha, ih]
      constructor
      · rintro ⟨hk, hs⟩
        exact ⟨List.mem_cons_of_mem a hk, hs⟩
      · rintro ⟨hk, hs⟩
        rcases List.mem_cons.mp hk with hk | hk
        · exact absurd (hk ▸ ha) hs
        · exact ⟨hk, hs⟩
    · rw [pydedupAux, if_neg ha]
      by_cases hka : k = a
      · subst hka
        simp [ha]
      · simp [hka, ih, List.mem_cons]

theorem mem_pydedup {k : String} {keys : List String} :
    k ∈ pydedup keys ↔ k ∈ keys := by
  simp [pydedup, mem_pydedupAux]

theorem nodup_pydedupAux (seen ks : List String) :
    (pydedupAux seen ks).Nodup := by
  induction ks generalizing seen with
  | nil => simp [pydedupAux]
  | cons a t ih =>
    by_cases ha : a ∈ seen
    · rw [pydedupAux, if_pos ha]
      exact ih seen
    · rw [pydedupAux, if_neg ha]
      refine List.nodup_cons.mpr ⟨fun hmem => ?_, ih (a :: seen)⟩
      rw [mem_pydedupAux] at hmem
      exact hmem.2 (List.mem_cons_self a seen)

theorem nodup_pydedup (keys : List String) : (pydedup keys).Nodup :=
  nodup_pydedupAux [] keys

theorem dkeys_dmax1 (k : String) (d : Dict) : dkeys (dmax1 k d) = dkeys d := by
  induction d with
  | nil => rfl
  | cons p t ih =>
    obtain ⟨a, b⟩ := p
    by_cases h : a = k
    · simp only [dmax1, dkeys, List.map_cons, if_pos h] at *
      exact congrArg (List.cons a) ih
    · simp only [dmax1, dkeys, List.map_cons, if_neg h] at *
      exact congrArg (List.cons a) ih

theorem dkeys_dincr (k : String) (d : Dict) : dkeys (dincr k d) = dkeys d := by
  induction d with
  | nil => rfl
  | cons p t ih =>
    obtain ⟨a, b⟩ := p
    by_cases h : a = k
    · simp only [dincr, dkeys, List.map_cons, if_pos h] at *
      exact congrArg (List.cons a) ih
    · simp only [dincr, dkeys, List.map_cons, if_neg h] at *
      exact congrArg (List.cons a) ih

theorem dmem_iff {k : String} {d : Dict} : dmem k d = true ↔ k ∈ dkeys d := by
  induction d with
  | nil => simp [dmem, dkeys]
  | cons p t ih =>
    obtain ⟨a, b⟩ := p
    simp only [dmem, dkeys, List.any_cons, List.map_cons, List.mem_cons,
      Bool.or_eq_true, beq_iff_eq] at *
    constructor
    · rintro (h | h)
      · exact Or.inl h.symm
      · exact Or.inr (ih.mp h)
    · rintro (h | h)
      · exact Or.inl h.symm
      · exact Or.inr (ih.mpr h)

theorem dget_eq_zero_of_not_dmem {k : String} {d : Dict}
    (h : dmem k d = false) : dget k d = 0 := by
  induction d with
  | nil => rfl
  | cons p t ih =>
    obtain ⟨a, b⟩ := p
    simp only [dmem, List.any_cons, Bool.or_eq_false_iff,
      beq_eq_false_iff_ne, ne_eq] at h
    rw [dget, if_neg h.1]
    exact ih (by simpa [dmem] using h.2)

theorem dget_dmax1_ne {k2 k : String} (h : k2 ≠ k) (d : Dict) :
    dget k2 (dmax1 k d) = dget k2 d := by
  induction d with
  | nil => rfl
  | cons p t ih =>
    obtain ⟨a, b⟩ := p
    by_cases hp : a = k
    · have hne : a ≠ k2 := fun he => h (he ▸ hp)
      rw [dmax1, List.map_cons, if_pos hp]
      rw [dget, if_neg hne, dget, if_neg hne]
      exact ih
    · rw [dmax1, List.map_cons, if_neg hp]
      by_cases hp2 : a = k2
      · rw [dget, if_pos hp2, dget, if_pos hp2]
      · rw [dget, if_neg hp2, dget, if_neg hp2]
        exact ih

theorem dget_dincr_ne {k2 k : String} (h : k2 ≠ k) (d : Dict) :
    dget k2 (dincr k d) = dget k2 d := by
  induction d with
  | nil => rfl
  | cons p t ih =>
    obtain ⟨a, b⟩ := p
    by_cases hp : a = k
    · have hne : a ≠ k2 := fun he => h (he ▸ hp)
      rw [dincr, List.map_cons, if_pos hp]
      rw [dget, if_neg hne, dget, if_neg hne]
      exact ih
    · rw [dincr, List.map_cons, if_neg hp]
      by_cases hp2 : a = k2
      · rw [dget, if_pos hp2, dget, if_pos hp2]
      · rw [dget, if_neg hp2, dget, if_neg hp2]
        exact ih

theorem dmax1_not_mem {k : String} {d : Dict} (h : dmem k d = false) :
    dmax1 k d = d := by
  induction d with
  | nil => rfl
  | cons p t ih =>
    obtain ⟨a, b⟩ := p
    simp only [dmem, List.any_cons, Bool.or_eq_false_iff,
      beq_eq_false_iff_ne, ne_eq] at h
    rw [dmax1, List.map_cons, if_neg h.1]
    have := ih (by simpa [dmem] using h.2)
    rw [dmax1] at this
    rw [this]

theorem dincr_not_mem {k : String} {d : Dict} (h : dmem k d = false) :
    dincr k d = d := by
  induction d with
  | nil => rfl
  | cons p t ih =>
    obtain ⟨a, b⟩ := p
    simp only [dmem, List.any_cons, Bool.or_eq_false_iff,
      beq_eq_false_iff_ne, ne_eq] at h
    rw [dincr, List.map_cons, if_neg h.1]
    have := ih (by simpa [dmem] using h.2)
    rw [dincr] at this
    rw [this]

theorem dget_dmax1_self {k : String} {d : Dict} (h : dmem k d = true) :
    dget k (dmax1 k d) = max (dget k d) 1 := by
  induction d with
  | nil => simp [dmem] at h
  | cons p t ih =>
    obtain ⟨a, b⟩ := p
    by_cases hp : a = k
    · rw [dmax1, List.map_cons, if_pos hp]
      rw [dget, if_pos hp, dget, if_pos hp]
    · simp only [dmem, List.any_cons, Bool.or_eq_true, beq_iff_eq] at h
      rcases h with h | h
      · exact absurd h hp
      · rw [dmax1, List.map_cons, if_neg hp]
        rw [dget, if_neg hp, dget, if_neg hp]
        exact ih (by simpa [dmem] using h)

theorem dget_dincr_self {k : String} {d : Dict} (h : dmem k d = true) :
    dget k (dincr k d) = dget k d + 1 := by
  induction d with
  | nil => simp [dmem] at h
  | cons p t ih =>
    obtain ⟨a, b⟩ := p
    by_cases hp : a = k
    · rw [dincr, List.map_cons, if_pos hp]
      rw [dget, if_pos hp, dget, if_pos hp]
    · simp only [dmem, List.any_cons, Bool.or_eq_true, beq_iff_eq] at h
      rcases h with h | h
      · exact absurd h hp
      · rw [dincr, List.map_cons, if_neg hp]
        rw [dget, if_neg hp, dget, if_neg hp]
        exact ih (by simpa [dmem] using h)

theorem dget_le_dmax1 (k2 k : String) (d : Dict) :
    dget k2 d ≤ dget k2 (dmax1 k d) := by
  by_cases hk : k2 = k
  · subst hk
    by_cases hm : dmem k2 d
    · rw [dget_dmax1_self hm]
      exact Nat.le_max_left _ _
    · rw [dmax1_not_mem (Bool.eq_false_iff.mpr hm)]
  · rw [dget_dmax1_ne hk]

theorem dget_le_dincr (k2 k : String) (d : Dict) :
    dget k2 d ≤ dget k2 (dincr k d) := by
  by_cases hk : k2 = k
  · subst hk
    by_cases hm : dmem k2 d
    · rw [dget_dincr_self hm]
      exact Nat.le_succ _
    · rw [dincr_not_mem (Bool.eq_false_iff.mpr hm)]
  · rw [dget_dincr_ne hk]

theorem dkeys_map_zero (l : List String) :
    dkeys (l.map (fun a => (a, 0))) = l := by
  induction l with
  | nil => rfl
  | cons a t ih =>
    simp only [List.map_cons, dkeys] at *
    exact congrArg (List.cons a) ih

theorem dkeys_dinit (keys : List String) :
    dkeys (dinit keys) = pydedup keys :=
  dkeys_map_zero (pydedup keys)

theorem dget_map_zero (k : String) (l : List String) :
    dget k (l.map (fun a => (a, 0))) = 0 := by
  induction l with
  | nil => rfl
  | cons a t ih =>
    simp only [List.map_cons, dget]
    by_cases h : a = k <;> simp [h, ih]

theorem dget_dinit (k : String) (keys : List String) :
    dget k (dinit keys) = 0 :=
  dget_map_zero k (pydedup keys)

theorem bool_eq_of_iff {a b : Bool} (h : a = true ↔ b = true) : a = b := by
  cases a <;> cases b <;> simp_all

theorem dmem_eq_of_dkeys_eq {d1 d2 : Dict} (k : String)
    (h : dkeys d1 = dkeys d2) : dmem k d1 = dmem k d2 :=
  bool_eq_of_iff (by rw [dmem_iff, dmem_iff, h])

theorem dmem_dmax1 (k a : String) (d : Dict) :
    dmem k (dmax1 a d) = dmem k d :=
  dmem_eq_of_dkeys_eq k (dkeys_dmax1 a d)

theorem dmem_dincr (k a : String) (d : Dict) :
    dmem k (dincr a d) = dmem k d :=
  dmem_eq_of_dkeys_eq k (dkeys_dincr a d)

/-! # Characterization of the nocite pass

The dictionary updates of the scan only ever raise values; each fold is
analysed through three lemmas: monotonicity, "value unchanged when
nothing triggers the key", and "value positive when something triggers
the key". -/

theorem dkeys_starFold (keys : List String) (u : Dict) :
    dkeys (starFold keys u) = dkeys u := by
  induction keys generalizing u with
  | nil => rfl
  | cons a t ih =>
    have hstep : starFold (a :: t) u = starFold t (dmax1 a u) := rfl
    rw [hstep, ih (dmax1 a u), dkeys_dmax1]

theorem dget_le_starFold (k : String) (ks : List String) (u : Dict) :
    dget k u ≤ dget k (starFold ks u) := by
  induction ks generalizing u with
  | nil => exact Nat.le_refl _
  | cons a t ih =>
    have hstep : starFold (a :: t) u = starFold t (dmax1 a u) := rfl
    rw [hstep]
    exact Nat.le_trans (dget_le_dmax1 k a u) (ih (dmax1 a u))

theorem starFold_get_of_not_mem {k : String} {ks : List String} (u : Dict)
    (h : ¬k ∈ ks) : dget k (starFold ks u) = dget k u := by
  induction ks generalizing u with
  | nil => rfl
  | cons a t ih =>
    have hstep : starFold (a :: t) u = starFold t (dmax1 a u) := rfl
    have hak : ¬a = k := fun he => h (he ▸ List.mem_cons_self a t)
    rw [hstep, ih (dmax1 a u) (fun hm => h (List.mem_cons_of_mem a hm)),
      dget_dmax1_ne (fun he : k = a => hak he.symm)]

theorem starFold_pos {k : String} {ks : List String} {u : Dict}
    (hk : k ∈ ks) (hm : dmem k u = true) :
    0 < dget k (starFold ks u) := by
  induction ks generalizing u with
  | nil => exact absurd hk (List.not_mem_nil k)
  | cons a t ih =>
    have hstep : starFold (a :: t) u = starFold t (dmax1 a u) := rfl
    rw [hstep]
    by_cases hak : a = k
    · subst hak
      have hpos : 0 < dget a (dmax1 a u) := by
        rw [dget_dmax1_self hm]
        exact Nat.lt_of_lt_of_le Nat.zero_lt_one (Nat.le_max_right _ _)
      exact Nat.lt_of_lt_of_le hpos (dget_le_starFold a t (dmax1 a u))
    · have hkt : k ∈ t := by
        rcases List.mem_cons.mp hk with h | h
        · exact absurd h.symm hak
        · exact h
      exact ih hkt (by rw [dmem_dmax1]; exact hm)

theorem dkeys_listFold (u : Dict) (parts : List String) :
    dkeys (listFold u parts) = dkeys u := by
  induction parts generalizing u with
  | nil => rfl
  | cons a t ih =>
    have hstep : listFold u (a :: t) =
        listFold (if dmem (pyStrip a) u = true then dmax1 (pyStrip a) u else u) t := rfl
    rw [hstep]
    by_cases hm : dmem (pyStrip a) u = true
    · rw [if_pos hm, ih, dkeys_dmax1]
    · rw [if_neg hm, ih]

theorem dget_le_listFold (k : String) (u : Dict) (parts : List String) :
    dget k u ≤ dget k (listFold u parts) := by
  induction parts generalizing u with
  | nil => exact Nat.le_refl _
  | cons a t ih =>
    have hstep : listFold u (a :: t) =
        listFold (if dmem (pyStrip a) u = true then dmax1 (pyStrip a) u else u) t := rfl
    rw [hstep]
    by_cases hm : dmem (pyStrip a) u = true
    · rw [if_pos hm]
      exact Nat.le_trans (dget_le_dmax1 k (pyStrip a) u) (ih (dmax1 (pyStrip a) u))
    · rw [if_neg hm]
      exact ih u

theorem listFold_get_of_no_match {k : String} {parts : List String} (u : Dict)
    (h : ∀ part ∈ parts, pyStrip part ≠ k) :
    dget k (listFold u parts) = dget k u := by
  induction parts generalizing u with
  | nil => rfl
  | cons a t ih =>
    have hstep : listFold u (a :: t) =
        listFold (if dmem (pyStrip a) u = true then dmax1 (pyStrip a) u else u) t := rfl
    have hne : pyStrip a ≠ k := h a (List.mem_cons_self a t)
    have hrest : ∀ part ∈ t, pyStrip part ≠ k :=
      fun p hp => h p (List.mem_cons_of_mem a hp)
    rw [hstep]
    by_cases hm : dmem (pyStrip a) u = true
    · rw [if_pos hm, ih (dmax1 (pyStrip a) u) hrest,
        dget_dmax1_ne (fun he : k = pyStrip a => hne he.symm)]
    · rw [if_neg hm, ih u hrest]

theorem listFold_pos {k : String} {parts : List String} {u : Dict}
    (hm : dmem k u = true) (hex : ∃ part ∈ parts, pyStrip part = k) :
    0 < dget k (listFold u parts) := by
  induction parts generalizing u with
  | nil =>
    obtain ⟨p, hp, _⟩ := hex
    exact absurd hp (List.not_mem_nil p)
  | cons a t ih =>
    have hstep : listFold u (a :: t) =
        listFold (if dmem (pyStrip a) u = true then dmax1 (pyStrip a) u else u) t := rfl
    rw [hstep]
    by_cases hpa : pyStrip a = k
    · rw [hpa, if_pos hm]
      have hpos : 0 < dget k (dmax1 k u) := by
        rw [dget_dmax1_self hm]
        exact Nat.lt_of_lt_of_le Nat.zero_lt_one (Nat.le_max_right _ _)
      exact Nat.lt_of_lt_of_le hpos (dget_le_listFold k (dmax1 k u) t)
    · obtain ⟨p, hp, hpk⟩ := hex
      have hpt : p ∈ t := by
        rcases List.mem_cons.mp hp with h | h
        · exact absurd (h ▸ hpk) hpa
        · exact h
      by_cases hm2 : dmem (pyStrip a) u = true
      · rw [if_pos hm2]
        exact ih (by rw [dmem_dmax1]; exact hm) ⟨p, hpt, hpk⟩
      · rw [if_neg hm2]
        exact ih hm ⟨p, hpt, hpk⟩

theorem dkeys_nociteApply (keys : List String) (u : Dict) (c : String) :
    dkeys (nociteApply keys u c) = dkeys u := by
  rw [nociteApply]
  by_cases hs : pyStrip c = "*"
  · rw [if_pos hs, dkeys_starFold]
  · rw [if_neg hs, dkeys_listFold]

theorem dget_le_nociteApply (keys : List String) (k : String) (u : Dict)
    (c : String) : dget k u ≤ dget k (nociteApply keys u c) := by
  rw [nociteApply]
  by_cases hs : pyStrip c = "*"
  · rw [if_pos hs]
    exact dget_le_starFold k keys u
  · rw [if_neg hs]
    exact dget_le_listFold k u _

theorem nociteApply_get_of_no_trig {keys : List String} {k : String}
    {c : String} (u : Dict) (h : ¬NociteTrig keys k c) :
    dget k (nociteApply keys u c) = dget k u := by
  rw [nociteApply]
  by_cases hs : pyStrip c = "*"
  · rw [if_pos hs]
    refine starFold_get_of_not_mem u (fun hk => h ?_)
    exact Or.inl ⟨hs, hk⟩
  · rw [if_neg hs]
    refine listFold_get_of_no_match u (fun p hp he => h ?_)
    exact Or.inr ⟨hs, List.mem_map.mpr ⟨p, hp, he⟩⟩

theorem nociteApply_pos {keys : List String} {k : String} {c : String}
    {u : Dict} (hm : dmem k u = true) (htrig : NociteTrig keys k c) :
    0 < dget k (nociteApply keys u c) := by
  rw [nociteApply]
  rcases htrig with ⟨hs, hk⟩ | ⟨hs, hk⟩
  · rw [if_pos hs]
    exact starFold_pos hk hm
  · rw [if_neg hs]
    obtain ⟨p, hp, he⟩ := List.mem_map.mp hk
    exact listFold_pos hm ⟨p, hp, he⟩

theorem dkeys_nociteStep (keys : List String) (u : Dict) (cs : List String) :
    dkeys (nociteStep keys u cs) = dkeys u := by
  induction cs generalizing u with
  | nil => rfl
  | cons c t ih =>
    have hstep : nociteStep keys u (c :: t) =
        nociteStep keys (nociteApply keys u c) t := rfl
    rw [hstep, ih (nociteApply keys u c), dkeys_nociteApply]

theorem dget_le_nociteStep (keys : List String) (k : String) (u : Dict)
    (cs : List String) : dget k u ≤ dget k (nociteStep keys u cs) := by
  induction cs generalizing u with
  | nil => exact Nat.le_refl _
  | cons c t ih =>
    have hstep : nociteStep keys u (c :: t) =
        nociteStep keys (nociteApply keys u c) t := rfl
    rw [hstep]
    exact Nat.le_trans (dget_le_nociteApply keys k u c) (ih _)

theorem nociteStep_pos {keys : List String} {k : String} {cs : List String}
    {u : Dict} (hm : dmem k u = true)
    (hex : ∃ c ∈ cs, NociteTrig keys k c) :
    0 < dget k (nociteStep keys u cs) := by
  induction cs generalizing u with
  | nil =>
    obtain ⟨c, hc, _⟩ := hex
    exact absurd hc (List.not_mem_nil c)
  | cons c t ih =>
    have hstep : nociteStep keys u (c :: t) =
        nociteStep keys (nociteApply keys u c) t := rfl
    rw [hstep]
    obtain ⟨c2, hc2, htrig⟩ := hex
    rcases List.mem_cons.mp hc2 with hh | hh
    · subst hh
      exact Nat.lt_of_lt_of_le (nociteApply_pos hm htrig)
        (dget_le_nociteStep keys k _ t)
    · have hm2 : dmem k (nociteApply keys u c) = true := by
        rw [dmem_eq_of_dkeys_eq k (dkeys_nociteApply keys u c)]
        exact hm
      exact ih hm2 ⟨c2, hh, htrig⟩

theorem nociteStep_pos_elim {keys : List String} {k : String}
    {cs : List String} {u : Dict}
    (h : 0 < dget k (nociteStep keys u cs)) :
    0 < dget k u ∨ ∃ c ∈ cs, NociteTrig keys k c := by
  induction cs generalizing u with
  | nil => exact Or.inl h
  | cons c t ih =>
    have hstep : nociteStep keys u (c :: t) =
        nociteStep keys (nociteApply keys u c) t := rfl
    rw [hstep] at h
    by_cases htrig : NociteTrig keys k c
    · exact Or.inr ⟨c, List.mem_cons_self c t, htrig⟩
    · rcases ih h with hpos | ⟨c2, hc2, ht2⟩
      · rw [nociteApply_get_of_no_trig u htrig] at hpos
        exact Or.inl hpos
      · exact Or.inr ⟨c2, List.mem_cons_of_mem c hc2, ht2⟩

/-! # Characterization of the generic substring pass -/

theorem dkeys_genericFold (txt : String) (u : Dict) (ks : List String) :
    dkeys (genericFold txt u ks) = dkeys u := by
  induction ks generalizing u with
  | nil => rfl
  | cons a t ih =>
    have hstep : genericFold txt u (a :: t) =
        genericFold txt (if occursIn a txt = true then dincr a u else u) t := rfl
    rw [hstep]
    by_cases ho : occursIn a txt = true
    · rw [if_pos ho, ih, dkeys_dincr]
    · rw [if_neg ho, ih]

theorem genericFold_get_of_not_mem {k : String} {ks : List String}
    (txt : String) (u : Dict) (h : ¬k ∈ ks) :
    dget k (genericFold txt u ks) = dget k u := by
  induction ks generalizing u with
  | nil => rfl
  | cons a t ih =>
    have hstep : genericFold txt u (a :: t) =
        genericFold txt (if occursIn a txt = true then dincr a u else u) t := rfl
    have hak : ¬a = k := fun he => h (he ▸ List.mem_cons_self a t)
    have hrest : ¬k ∈ t := fun hm => h (List.mem_cons_of_mem a hm)
    rw [hstep]
    by_cases ho : occursIn a txt = true
    · rw [if_pos ho, ih (dincr a u) hrest,
        dget_dincr_ne (fun he : k = a => hak he.symm)]
    · rw [if_neg ho, ih u hrest]

theorem dget_genericFold {k : String} {ks : List String} {u : Dict}
    (txt : String) (hnd : ks.Nodup) (hm : k ∈ ks → dmem k u = true) :
    dget k (genericFold txt u ks) =
      dget k u + (if k ∈ ks ∧ occursIn k txt = true then 1 else 0) := by
  induction ks generalizing u with
  | nil => simp [genericFold]
  | cons a t ih =>
    have hstep : genericFold txt u (a :: t) =
        genericFold txt (if occursIn a txt = true then dincr a u else u) t := rfl
    rw [hstep]
    have hndt : t.Nodup := (List.nodup_cons.mp hnd).2
    by_cases hak : a = k
    · subst hak
      have hkt : ¬a ∈ t := (List.nodup_cons.mp hnd).1
      have hmm : dmem a u = true := hm (List.mem_cons_self a t)
      by_cases ho : occursIn a txt = true
      · rw [if_pos ho, genericFold_get_of_not_mem txt (dincr a u) hkt,
          dget_dincr_self hmm]
        simp [ho]
      · rw [if_neg ho, genericFold_get_of_not_mem txt u hkt]
        simp [ho]
    · have hmem_iff : (k ∈ a :: t ∧ occursIn k txt = true) ↔
          (k ∈ t ∧ occursIn k txt = true) := by
        constructor
        · rintro ⟨hk, ho⟩
          rcases List.mem_cons.mp hk with hk | hk
          · exact absurd hk.symm hak
          · exact ⟨hk, ho⟩
        · rintro ⟨hk, ho⟩
          exact ⟨List.mem_cons_of_mem a hk, ho⟩
      by_cases ho : occursIn a txt = true
      · have hm2 : k ∈ t → dmem k (dincr a u) = true := by
          intro hk
          rw [dmem_dincr]
          exact hm (List.mem_cons_of_mem a hk)
        rw [if_pos ho, ih hndt hm2,
          dget_dincr_ne (fun he : k = a => hak he.symm)]
        by_cases hkt : k ∈ t
        · simp [hkt, hmem_iff]
        · simp only [hkt, false_and, if_neg, not_false_iff]
          by_cases hocc : occursIn k txt = true
          · have hka : ¬k = a := fun he => hak he.symm
            simp [hkt, hka]
          · simp [hkt, hocc]
      · have hm2 : k ∈ t → dmem k u = true := by
          intro hk
          exact hm (List.mem_cons_of_mem a hk)
        rw [if_neg ho, ih hndt hm2]
        by_cases hkt : k ∈ t
        · simp [hkt, hmem_iff]
        · have hka : ¬k = a := fun he => hak he.symm
          simp [hkt, hka]

theorem dkeys_genericStep (keys : List String) (u : Dict) (txt : String) :
    dkeys (genericStep keys u txt) = dkeys u :=
  dkeys_genericFold txt u (pydedup keys)

theorem dget_le_genericStep (keys : List String) (k : String) (u : Dict)
    (txt : String) : dget k u ≤ dget k (genericStep keys u txt) := by
  rw [genericStep]
  generalize pydedup keys = ks
  induction ks generalizing u with
  | nil => exact Nat.le_refl _
  | cons a t ih =>
    have hstep : genericFold txt u (a :: t) =
        genericFold txt (if occursIn a txt = true then dincr a u else u) t := rfl
    rw [hstep]
    by_cases ho : occursIn a txt = true
    · rw [if_pos ho]
      exact Nat.le_trans (dget_le_dincr k a u) (ih (dincr a u))
    · rw [if_neg ho]
      exact ih u

theorem dget_genericStep {keys : List String} {k : String} {u : Dict}
    (txt : String) (hd : dkeys u = pydedup keys) :
    dget k (genericStep keys u txt) =
      dget k u + (if k ∈ keys ∧ occursIn k txt = true then 1 else 0) := by
  rw [genericStep, dget_genericFold txt (nodup_pydedup keys)
    (fun hk => by rw [dmem_iff, hd]; exact hk)]
  simp [mem_pydedup]

/-! # Per-file and whole-scan characterizations -/

theorem dkeys_stepUsed (keys : List String) (u : Dict) (f : FileRec) :
    dkeys (stepUsed keys u f) = dkeys u := by
  rw [stepUsed, dkeys_genericStep, dkeys_nociteStep]

theorem dget_le_stepUsed (keys : List String) (k : String) (u : Dict)
    (f : FileRec) : dget k u ≤ dget k (stepUsed keys u f) := by
  rw [stepUsed]
  exact Nat.le_trans (dget_le_nociteStep keys k u (nocites f.txt))
    (dget_le_genericStep keys k _ f.txt)

theorem stepUsed_pos_iff {keys : List String} {k : String} {u : Dict}
    {f : FileRec} (hd : dkeys u = pydedup keys) (hk : k ∈ keys) :
    0 < dget k (stepUsed keys u f) ↔ 0 < dget k u ∨ FileTrig keys k f := by
  rw [stepUsed]
  have hd1 : dkeys (nociteStep keys u (nocites f.txt)) = pydedup keys := by
    rw [dkeys_nociteStep, hd]
  rw [dget_genericStep f.txt hd1, FileTrig]
  have hmem : dmem k u = true := by
    rw [dmem_iff, hd, mem_pydedup]
    exact hk
  constructor
  · intro h
    by_cases hocc : occursIn k f.txt = true
    · exact Or.inr (Or.inr hocc)
    · rw [if_neg (fun hc => hocc hc.2), Nat.add_zero] at h
      rcases nociteStep_pos_elim h with hpos | hex
      · exact Or.inl hpos
      · exact Or.inr (Or.inl hex)
  · intro h
    rcases h with hpos | hex | hocc
    · have h1 : 0 < dget k (nociteStep keys u (nocites f.txt)) :=
        Nat.lt_of_lt_of_le hpos (dget_le_nociteStep keys k u (nocites f.txt))
      exact Nat.lt_of_lt_of_le h1 (Nat.le_add_right _ _)
    · have h1 : 0 < dget k (nociteStep keys u (nocites f.txt)) :=
        nociteStep_pos hmem hex
      exact Nat.lt_of_lt_of_le h1 (Nat.le_add_right _ _)
    · rw [if_pos ⟨hk, hocc⟩]
      exact Nat.lt_of_lt_of_le Nat.zero_lt_one (Nat.le_add_left 1 _)

theorem dkeys_usedFrom (keys : List String) (bib : Option String) (u : Dict)
    (files : List FileRec) : dkeys (usedFrom keys bib u files) = dkeys u := by
  induction files generalizing u with
  | nil => rfl
  | cons f t ih =>
    have hstep : usedFrom keys bib u (f :: t) =
        usedFrom keys bib (if skipFile bib f = true then u else stepUsed keys u f) t := rfl
    rw [hstep]
    by_cases hs : skipFile bib f = true
    · rw [if_pos hs, ih]
    · rw [if_neg hs, ih, dkeys_stepUsed]

theorem dget_le_usedFrom (keys : List String) (bib : Option String)
    (k : String) (u : Dict) (files : List FileRec) :
    dget k u ≤ dget k (usedFrom keys bib u files) := by
  induction files generalizing u with
  | nil => exact Nat.le_refl _
  | cons f t ih =>
    have hstep : usedFrom keys bib u (f :: t) =
        usedFrom keys bib (if skipFile bib f = true then u else stepUsed keys u f) t := rfl
    rw [hstep]
    by_cases hs : skipFile bib f = true
    · rw [if_pos hs]
      exact ih u
    · rw [if_neg hs]
      exact Nat.le_trans (dget_le_stepUsed keys k u f) (ih (stepUsed keys u f))

theorem usedFrom_pos_iff {keys : List String} {bib : Option String}
    {k : String} {u : Dict} {files : List FileRec}
    (hd : dkeys u = pydedup keys) (hk : k ∈ keys) :
    0 < dget k (usedFrom keys bib u files) ↔
      0 < dget k u ∨ ∃ f ∈ files, skipFile bib f = false ∧ FileTrig keys k f := by
  induction files generalizing u with
  | nil =>
    simp [usedFrom]
  | cons f t ih =>
    have hstep : usedFrom keys bib u (f :: t) =
        usedFrom keys bib (if skipFile bib f = true then u else stepUsed keys u f) t := rfl
    rw [hstep]
    by_cases hs : skipFile bib f = true
    · rw [if_pos hs, ih hd]
      constructor
      · rintro (hpos | ⟨g, hg, hgs, hgt⟩)
        · exact Or.inl hpos
        · exact Or.inr ⟨g, List.mem_cons_of_mem f hg, hgs, hgt⟩
      · rintro (hpos | ⟨g, hg, hgs, hgt⟩)
        · exact Or.inl hpos
        · rcases List.mem_cons.mp hg with hg | hg
          · rw [hg] at hgs
            rw [hs] at hgs
            exact absurd hgs (by simp)
          · exact Or.inr ⟨g, hg, hgs, hgt⟩
    · have hd2 : dkeys (stepUsed keys u f) = pydedup keys := by
        rw [dkeys_stepUsed, hd]
      rw [if_neg hs, ih hd2, stepUsed_pos_iff hd hk]
      have hsf : skipFile bib f = false := Bool.eq_false_iff.mpr hs
      constructor
      · rintro ((hpos | htrig) | ⟨g, hg, hgs, hgt⟩)
        · exact Or.inl hpos
        · exact Or.inr ⟨f, List.mem_cons_self f t, hsf, htrig⟩
        · exact Or.inr ⟨g, List.mem_cons_of_mem f hg, hgs, hgt⟩
      · rintro (hpos | ⟨g, hg, hgs, hgt⟩)
        · exact Or.inl (Or.inl hpos)
        · rcases List.mem_cons.mp hg with hg | hg
          · exact Or.inl (Or.inr (hg ▸ hgt))
          · exact Or.inr ⟨g, hg, hgs, hgt⟩

theorem scan_fst_eq_usedFrom (keys : List String) (bib : Option String)
    (st : Dict × List MissingRec) (files : List FileRec) :
    (files.foldl (stepFile keys bib) st).1 = usedFrom keys bib st.1 files := by
  induction files generalizing st with
  | nil => rfl
  | cons f t ih =>
    have hstep : (f :: t).foldl (stepFile keys bib) st =
        t.foldl (stepFile keys bib) (stepFile keys bib st f) := rfl
    rw [hstep, ih (stepFile keys bib st f)]
    have hstep2 : usedFrom keys bib st.1 (f :: t) =
        usedFrom keys bib (if skipFile bib f = true then st.1 else stepUsed keys st.1 f) t := rfl
    rw [hstep2]
    by_cases hs : skipFile bib f = true
    · rw [if_pos hs]
      have : stepFile keys bib st f = st := by
        rw [stepFile, if_pos hs]
      rw [this]
    · rw [if_neg hs]
      have : (stepFile keys bib st f).1 = stepUsed keys st.1 f := by
        rw [stepFile, if_neg hs]
        rfl
      rw [this]

theorem scan_used_eq (keys : List String) (files : List FileRec)
    (bib : Option String) :
    (scan_for_usage keys files bib).1 = usedFrom keys bib (dinit keys) files :=
  scan_fst_eq_usedFrom keys bib (dinit keys, []) files

theorem dkeys_scan (keys : List String) (files : List FileRec)
    (bib : Option String) :
    dkeys (scan_for_usage keys files bib).1 = pydedup keys := by
  rw [scan_used_eq, dkeys_usedFrom, dkeys_dinit]

theorem scan_pos_iff {keys : List String} {files : List FileRec}
    {bib : Option String} {k : String} (hk : k ∈ keys) :
    0 < dget k (scan_for_usage keys files bib).1 ↔
      ∃ f ∈ files, skipFile bib f = false ∧ FileTrig keys k f := by
  rw [scan_used_eq, usedFrom_pos_iff (dkeys_dinit keys) hk, dget_dinit]
  simp

/-! # The missing-citation refinement -/

theorem foldl_append_eq {α β : Type} (g : α → List β) (l : List α)
    (init : List β) :
    l.foldl (fun acc a => acc ++ g a) init = init ++ l.flatMap g := by
  induction l generalizing init with
  | nil => simp
  | cons a t ih =>
    simp only [List.foldl_cons, List.flatMap_cons, ih, List.append_assoc]

theorem flatMap_congr {α β : Type} {l : List α} {f g : α → List β}
    (h : ∀ a ∈ l, f a = g a) : l.flatMap f = l.flatMap g := by
  induction l with
  | nil => rfl
  | cons a t ih =>
    simp only [List.flatMap_cons]
    rw [h a (List.mem_cons_self a t), ih (fun x hx => h x (List.mem_cons_of_mem a hx))]

theorem filterMap_congr {α β : Type} {l : List α} {f g : α → Option β}
    (h : ∀ a ∈ l, f a = g a) : l.filterMap f = l.filterMap g := by
  induction l with
  | nil => rfl
  | cons a t ih =>
    simp only [List.filterMap_cons]
    rw [h a (List.mem_cons_self a t), ih (fun x hx => h x (List.mem_cons_of_mem a hx))]

theorem partsMissing_eq (u : Dict) (path : String) (n : Nat) (line : String)
    (g : String) :
    partsMissing u path n line g =
      (pySplit ',' g).filterMap (fun part =>
        if pyStrip part ≠ "" ∧ dmem (pyStrip part) u = false then
          some ⟨pyStrip part, path, n, pyStrip line⟩
        else none) := by
  rw [partsMissing]
  generalize pySplit ',' g = parts
  suffices h : ∀ (init : List MissingRec),
      parts.foldl
        (fun acc part =>
          if pyStrip part ≠ "" ∧ dmem (pyStrip part) u = false then
            acc ++ [⟨pyStrip part, path, n, pyStrip line⟩]
          else acc) init =
        init ++ parts.filterMap (fun part =>
          if pyStrip part ≠ "" ∧ dmem (pyStrip part) u = false then
            some ⟨pyStrip part, path, n, pyStrip line⟩
          else none) by
    rw [h []]
    rfl
  induction parts with
  | nil => simp
  | cons a t ih =>
    intro init
    simp only [List.foldl_cons, List.filterMap_cons]
    by_cases hc : pyStrip a ≠ "" ∧ dmem (pyStrip a) u = false
    · rw [if_pos hc, if_pos hc, ih, List.append_assoc]
      rfl
    · rw [if_neg hc, if_neg hc, ih]

theorem lineMissing_eq (u : Dict) (path : String) (n : Nat) (line : String) :
    lineMissing u path n line =
      (citeMatches line).flatMap (partsMissing u path n line) := by
  rw [lineMissing]
  have h := foldl_append_eq (partsMissing u path n line) (citeMatches line) []
  rw [h]
  rfl

theorem missingStep_eq (u : Dict) (path : String) (txt : String) :
    missingStep u path txt =
      (enumN 1 (pySplitlines txt)).flatMap
        (fun nl => lineMissing u path nl.1 nl.2) := by
  rw [missingStep]
  have h := foldl_append_eq (fun nl : Nat × String => lineMissing u path nl.1 nl.2)
    (enumN 1 (pySplitlines txt)) []
  rw [h]
  rfl

theorem missingStep_spec {keys : List String} {u : Dict} (path : String)
    (txt : String) (hd : dkeys u = pydedup keys) :
    missingStep u path txt = missingOfFile keys ⟨path, txt⟩ := by
  rw [missingStep_eq, missingOfFile]
  refine flatMap_congr (fun nl _ => ?_)
  rw [lineMissing_eq]
  refine flatMap_congr (fun g _ => ?_)
  rw [partsMissing_eq]
  refine filterMap_congr (fun part _ => ?_)
  have hmem : dmem (pyStrip part) u = false ↔ ¬pyStrip part ∈ keys := by
    rw [← Bool.not_eq_true, dmem_iff, hd, mem_pydedup]
  by_cases hc : pyStrip part ≠ "" ∧ dmem (pyStrip part) u = false
  · rw [if_pos hc, if_pos ⟨hc.1, hmem.mp hc.2⟩]
  · rw [if_neg hc, if_neg (fun hc2 => hc ⟨hc2.1, hmem.mpr hc2.2⟩)]

theorem missingSpec_cons (keys : List String) (bib : Option String)
    (f : FileRec) (t : List FileRec) :
    missingCitationsSpec keys bib (f :: t) =
      (if skipFile bib f = true then [] else missingOfFile keys f)
        ++ missingCitationsSpec keys bib t := by
  rw [missingCitationsSpec, missingCitationsSpec, List.filter_cons]
  by_cases hs : skipFile bib f = true
  · rw [if_pos hs]
    simp [hs]
  · have : (!skipFile bib f) = true := by
      rw [Bool.eq_false_iff.mpr hs]
      rfl
    rw [if_neg hs]
    simp only [this, if_pos, List.flatMap_cons]
    rfl

theorem scan_snd_eq {keys : List String} {bib : Option String}
    (st : Dict × List MissingRec) (files : List FileRec)
    (hd : dkeys st.1 = pydedup keys) :
    (files.foldl (stepFile keys bib) st).2 =
      st.2 ++ missingCitationsSpec keys bib files := by
  induction files generalizing st with
  | nil => simp [missingCitationsSpec]
  | cons f t ih =>
    have hstep : (f :: t).foldl (stepFile keys bib) st =
        t.foldl (stepFile keys bib) (stepFile keys bib st f) := rfl
    rw [hstep, missingSpec_cons]
    by_cases hs : skipFile bib f = true
    · have heq : stepFile keys bib st f = st := by
        rw [stepFile, if_pos hs]
      rw [heq, ih st hd, if_pos hs, List.nil_append]
    · have heq : stepFile keys bib st f =
          (stepUsed keys st.1 f,
            st.2 ++ missingStep (nociteStep keys st.1 (nocites f.txt)) f.path f.txt) := by
        rw [stepFile, if_neg hs]
        rfl
      have hd1 : dkeys (nociteStep keys st.1 (nocites f.txt)) = pydedup keys := by
        rw [dkeys_nociteStep, hd]
      have hd2 : dkeys (stepUsed keys st.1 f, st.2 ++
          missingStep (nociteStep keys st.1 (nocites f.txt)) f.path f.txt).1
          = pydedup keys := by
        rw [dkeys_stepUsed, hd]
      rw [heq, ih _ hd2, if_neg hs]
      rw [missingStep_spec f.path f.txt hd1]
      simp [List.append_assoc]

theorem scan_missing_eq (keys : List String) (files : List FileRec)
    (bib : Option String) :
    (scan_for_usage keys files bib).2 = missingCitationsSpec keys bib files := by
  rw [scan_for_usage]
  have h := @scan_snd_eq keys bib (dinit keys, []) files (dkeys_dinit keys)
  rw [h]
  rfl

theorem missingOfFile_key {keys : List String} {f : FileRec} {r : MissingRec}
    (h : r ∈ missingOfFile keys f) : r.key ≠ "" ∧ ¬r.key ∈ keys := by
  rw [missingOfFile] at h
  obtain ⟨nl, _, h⟩ := List.mem_flatMap.mp h
  obtain ⟨g, _, h⟩ := List.mem_flatMap.mp h
  obtain ⟨part, _, h⟩ := List.mem_filterMap.mp h
  by_cases hc : pyStrip part ≠ "" ∧ ¬pyStrip part ∈ keys
  · rw [if_pos hc] at h
    cases Option.some.inj h
    exact hc
  · rw [if_neg hc] at h
    cases h

theorem missingSpec_key {keys : List String} {bib : Option String}
    {files : List FileRec} {r : MissingRec}
    (h : r ∈ missingCitationsSpec keys bib files) :
    r.key ≠ "" ∧ ¬r.key ∈ keys := by
  rw [missingCitationsSpec] at h
  obtain ⟨f, _, h⟩ := List.mem_flatMap.mp h
  exact missingOfFile_key h

/-! # Claim theorems -/

/-- C1 (counterexample): for the bibliography consisting of the two
entries `@article{foo, title={A Study}, doi={10.1/x}}` and
`@article{bar, title={A Study}, doi={10.1/y}}` written exactly as shown
(one line each), the extractor parses both entries but finds no title
and no DOI (the field pattern requires a newline after the closing
brace), so the duplicate-title map is empty: the report does not list
`['foo', 'bar']` in any duplicate-title group, refuting the claim as
stated. -/
theorem claim_C1_counterexample :
    (extract_bib_keys bibOneLine).map (fun e => e.key) = ["foo", "bar"] ∧
    (extract_bib_keys bibOneLine).map (fun e => e.title) = [none, none] ∧
    (extract_bib_keys bibOneLine).map (fun e => e.doi) = [none, none] ∧
    dup_titles (extract_bib_keys bibOneLine) = [] ∧
    dup_dois (extract_bib_keys bibOneLine) = [] := by
  refine ⟨by decide, by decide, by decide, by decide, by decide⟩

/-- C1 (amended): for the same two entries written in conventional
multi-line form (each field terminated by a newline), the report lists
`['foo', 'bar']` together in exactly one duplicate-title group and no
duplicate-DOI group; title normalization is whitespace-collapsing and
case-folding, DOI normalization is trimming and case-folding, and every
reported group has 2 or more members. -/
theorem claim_C1 :
    dup_titles (extract_bib_keys bibMultiLine) = [("a study", ["foo", "bar"])] ∧
    dup_dois (extract_bib_keys bibMultiLine) = [] ∧
    normTitle "  A   Study " = "a study" ∧
    normDoi " 10.1/X " = "10.1/x" ∧
    (∀ es : List BibEntry,
      ((dup_titles es).all (fun g => decide (2 ≤ g.2.length))) = true ∧
      ((dup_dois es).all (fun g => decide (2 ≤ g.2.length))) = true) := by
  refine ⟨by decide, by decide, by decide, by decide, fun es => ⟨?_, ?_⟩⟩
  · rw [List.all_eq_true]
    intro g hg
    exact (List.mem_filter.mp hg).2
  · rw [List.all_eq_true]
    intro g hg
    exact (List.mem_filter.mp hg).2

/-- C2 (amended): for every existing bibliography file whose text
contains zero well-formed entry blocks, the tool prints exactly one
line, `No entries found in <path>`, and exits 0 (the claimed line
`Total bib entries: 0` is not what this branch prints). -/
theorem claim_C2 (path text : String) (tree : List FileRec)
    (extArgs : List String) (h : extract_bib_keys text = []) :
    mainRun true path text tree extArgs =
      (["No entries found in " ++ path], 0) := by
  simp [mainRun, h]

/-- Witness for C2 at a concrete zero-entry bibliography. -/
theorem claim_C2_witness :
    extract_bib_keys "just prose" = [] ∧
    mainRun true "bib.bib" "just prose" [] [] =
      (["No entries found in bib.bib"], 0) :=
  ⟨by decide, claim_C2 "bib.bib" "just prose" [] [] (by decide)⟩

/-- C2 (counterexample): on a concrete existing bibliography with zero
well-formed entries the tool exits 0 but prints
`No entries found in bibliography/literature.bib`; the line
`Total bib entries: 0` claimed by the spec appears nowhere in the
output. -/
theorem claim_C2_counterexample :
    mainRun true "bibliography/literature.bib" "no entries here" [] [] =
      (["No entries found in bibliography/literature.bib"], 0) ∧
    ¬"Total bib entries: 0" ∈
      (mainRun true "bibliography/literature.bib" "no entries here" [] []).1 := by
  refine ⟨by decide, by decide⟩

/-- C3 (code evaluation): under the default configuration the suffix of
a file is lowercased before membership in `{.tex, .md, .Rmd, .sty}`, so
`paper.Rmd` (suffix lowercased to `.rmd`, absent from the set) is NOT
among the discovered files, while the other default extensions are. -/
theorem claim_C3_eval :
    find_files none ["paper.Rmd", "a.tex", "b.md", "c.sty"] =
      ["a.tex", "b.md", "c.sty"] ∧
    ¬"paper.Rmd" ∈ find_files none ["paper.Rmd", "a.tex", "b.md", "c.sty"] ∧
    pyLower (pySuffix "paper.Rmd") = ".rmd" ∧
    ¬".rmd" ∈ defaultExts := by
  refine ⟨by decide, by decide, by decide, by decide⟩

/-- C4 (code evaluation): when `--ext .txt` is given, the extension set
passed to `find_files` is `{.txt}` alone — the defaults are replaced,
not extended — so a `.tex` file is dropped from the scan. -/
theorem claim_C4_eval :
    find_files (mainExts [".txt"]) ["a.tex", "b.txt"] = ["b.txt"] ∧
    ¬"a.tex" ∈ find_files (mainExts [".txt"]) ["a.tex", "b.txt"] := by
  refine ⟨by decide, by decide⟩

/-- C5: usage counts are monotone non-decreasing as more files are
processed (the count after a prefix of the file list is at most the
count after the whole list), and the used/unused classification
(count positive or zero) of every known key is invariant under
permutation of the file list. -/
theorem claim_C5 (keys : List String) (bib : Option String) (k : String)
    (pre post files2 : List FileRec) (hk : k ∈ keys)
    (hperm : (pre ++ post).Perm files2) :
    dget k (scan_for_usage keys pre bib).1 ≤
        dget k (scan_for_usage keys (pre ++ post) bib).1 ∧
      (0 < dget k (scan_for_usage keys (pre ++ post) bib).1 ↔
        0 < dget k (scan_for_usage keys files2 bib).1) := by
  constructor
  · rw [scan_used_eq, scan_used_eq]
    have hsplit : usedFrom keys bib (dinit keys) (pre ++ post) =
        usedFrom keys bib (usedFrom keys bib (dinit keys) pre) post := by
      rw [usedFrom, usedFrom, usedFrom, List.foldl_append]
    rw [hsplit]
    exact dget_le_usedFrom keys bib k (usedFrom keys bib (dinit keys) pre) post
  · rw [scan_pos_iff hk, scan_pos_iff hk]
    constructor
    · rintro ⟨f, hf, hfs, hft⟩
      exact ⟨f, hperm.mem_iff.mp hf, hfs, hft⟩
    · rintro ⟨f, hf, hfs, hft⟩
      exact ⟨f, hperm.mem_iff.mpr hf, hfs, hft⟩

/-- Witness for C5 at a concrete two-file scan and its swap. -/
theorem claim_C5_witness :
    dget "a" (scan_for_usage ["a"] [⟨"one.tex", "xx a yy"⟩] none).1 ≤
        dget "a" (scan_for_usage ["a"]
          ([⟨"one.tex", "xx a yy"⟩] ++ [⟨"two.tex", "zz"⟩]) none).1 ∧
      (0 < dget "a" (scan_for_usage ["a"]
          ([⟨"one.tex", "xx a yy"⟩] ++ [⟨"two.tex", "zz"⟩]) none).1 ↔
        0 < dget "a" (scan_for_usage ["a"]
          [⟨"two.tex", "zz"⟩, ⟨"one.tex", "xx a yy"⟩] none).1) :=
  claim_C5 ["a"] none "a" [⟨"one.tex", "xx a yy"⟩] [⟨"two.tex", "zz"⟩]
    [⟨"two.tex", "zz"⟩, ⟨"one.tex", "xx a yy"⟩] (by decide) (by decide)

/-- C6: for every file content and every known key (over the dictionary
state the scan maintains, whose key set is the deduplicated key list),
the generic substring pass adds exactly 1 to the key's count when the
key's text occurs in the content as a substring and 0 otherwise —
in particular several occurrences in one file still add only 1. -/
theorem claim_C6 (keys : List String) (u : Dict) (txt : String) (k : String)
    (hk : k ∈ keys) (hd : dkeys u = pydedup keys) :
    dget k (genericStep keys u txt) =
      dget k u + (if occursIn k txt = true then 1 else 0) := by
  rw [dget_genericStep txt hd]
  by_cases ho : occursIn k txt = true
  · simp [ho, hk]
  · simp [ho]

/-- Witness for C6: a key occurring twice in the file still counts
once. -/
theorem claim_C6_witness :
    dget "a" (genericStep ["a", "b"] (dinit ["a", "b"]) "a xx a") =
      dget "a" (dinit ["a", "b"]) +
        (if occursIn "a" "a xx a" = true then 1 else 0) :=
  claim_C6 ["a", "b"] (dinit ["a", "b"]) "a xx a" "a" (by decide) (by decide)

/-- C7: the missing-citation output of the scan is exactly the spec's
comprehension (over non-skipped files, 1-based line numbers, recognized
citation commands and comma-separated stripped parts, in first-to-last
discovery order, with records `(file, line, stripped line text)`), keys
in the known key set never produce a record, and the usage counts of the
scan are those computed with the missing-citation pass removed. -/
theorem claim_C7 (keys : List String) (files : List FileRec)
    (bib : Option String) :
    (scan_for_usage keys files bib).1 = usedFrom keys bib (dinit keys) files ∧
    (scan_for_usage keys files bib).2 = missingCitationsSpec keys bib files ∧
    ∀ p ∈ keys,
      ((scan_for_usage keys files bib).2.filter (fun r => r.key == p)) = [] := by
  refine ⟨scan_used_eq keys files bib, scan_missing_eq keys files bib, ?_⟩
  intro p hp
  rw [scan_missing_eq, List.filter_eq_nil_iff]
  intro r hr
  have h := missingSpec_key hr
  intro he
  refine h.2 ?_
  rw [beq_iff_eq] at he
  rw [he]
  exact hp

/-- Witness for C7 at a concrete scan with one unknown citation. -/
theorem claim_C7_witness :
    (scan_for_usage ["known"] [⟨"m.tex", "\\cite\x7bmiss\x7d x"⟩] none).2 =
      missingCitationsSpec ["known"] none [⟨"m.tex", "\\cite\x7bmiss\x7d x"⟩] ∧
    ((scan_for_usage ["known"] [⟨"m.tex", "\\cite\x7bmiss\x7d x"⟩] none).2.filter
      (fun r => r.key == "known")) = [] := by
  have h := claim_C7 ["known"] [⟨"m.tex", "\\cite\x7bmiss\x7d x"⟩] none
  exact ⟨h.2.1, h.2.2 "known" (by decide)⟩

/-- C8: if some scanned (non-skipped) file's content carries a
`\nocite{*}` directive, then after the whole scan every known key has a
usage count of at least 1, whatever the other files contain. -/
theorem claim_C8 (keys : List String) (files : List FileRec)
    (bib : Option String) (f : FileRec) (hf : f ∈ files)
    (hskip : skipFile bib f = false)
    (hstar : ∃ c ∈ nocites f.txt, pyStrip c = "*") :
    ∀ k ∈ keys, 1 ≤ dget k (scan_for_usage keys files bib).1 := by
  intro k hk
  have hpos : 0 < dget k (scan_for_usage keys files bib).1 := by
    rw [scan_pos_iff hk]
    obtain ⟨c, hc, hcs⟩ := hstar
    exact ⟨f, hf, hskip, Or.inl ⟨c, hc, Or.inl ⟨hcs, hk⟩⟩⟩
  exact hpos

/-- Witness for C8 at a concrete cite-all document. -/
theorem claim_C8_witness :
    1 ≤ dget "a" (scan_for_usage ["a", "b"]
      [⟨"n.tex", "\\nocite\x7b*\x7d"⟩] none).1 :=
  claim_C8 ["a", "b"] [⟨"n.tex", "\\nocite\x7b*\x7d"⟩] none
    ⟨"n.tex", "\\nocite\x7b*\x7d"⟩ (by decide) (by decide) (by decide)
    "a" (by decide)

/-- C9: the citation-command pattern requires the brace group directly
after the command name (up to whitespace): on the line
`\cite[p. 3]{unknownkey}` no citation command is matched, so scanning a
document consisting of that line produces no missing-citation record
for `unknownkey` even though it is not a known key. -/
theorem claim_C9 :
    citeMatches bracketLine = [] ∧
    (scan_for_usage ["realkey"] [⟨"doc.tex", bracketLine⟩] none).2 = [] := by
  refine ⟨by decide, by decide⟩

/-- C10: after any scan the domain of the usage-count dictionary is
exactly the known key set (as a set; its sequence is the deduplicated
key list), every count is a natural number (hence at least 0), and every
missing-citation record carries a key that is neither empty nor in the
known key set — so empty or whitespace-only comma-separated parts are
never recorded. -/
theorem claim_C10 (keys : List String) (files : List FileRec)
    (bib : Option String) :
    (∀ k, k ∈ dkeys (scan_for_usage keys files bib).1 ↔ k ∈ keys) ∧
    (∀ k, 0 ≤ dget k (scan_for_usage keys files bib).1) ∧
    ((scan_for_usage keys files bib).2.all
      (fun r => !(r.key == "") && !(decide (r.key ∈ keys)))) = true := by
  refine ⟨?_, fun k => Nat.zero_le _, ?_⟩
  · intro k
    rw [dkeys_scan, mem_pydedup]
  · rw [List.all_eq_true]
    intro r hr
    have h := missingSpec_key (scan_missing_eq keys files bib ▸ hr)
    have h1 : (r.key == "") = false := beq_eq_false_iff_ne.mpr h.1
    rw [h1, decide_eq_false h.2]
    rfl

end CheckBib
